import Mathlib

/-!
Verification of the `graham_mod_n` program (`src/main.rs`).

The program computes, for every `i < max`, the residue of Graham's number
(equivalently, of any sufficiently tall power tower of threes) modulo `i`,
via a totient sieve, binary modular exponentiation, and a single forward
scan over one reused buffer.

The Rust code is shallowly embedded below:
* machine integers become `Nat`, with an explicit `% 2 ^ 64` at the `u64`
  multiplications (release-mode wrapping) and `% 2 ^ 32` at the `as u32`
  narrowing casts;
* the buffer becomes a `List Nat`; Rust's panicking index operations
  `buf[i]` / `buf[i] = v` become the `Option`-valued `gget` / `gset`
  (out of bounds yields `none`, modeling the panic);
* `while` / `for` loops become structurally recursive functions over an
  explicit fuel argument that is always instantiated large enough to
  cover every iteration of the source loop.
-/

/-- Read a buffer cell, defaulting to 0 out of bounds (used where the
source code has already established the index is in bounds). -/
def nth (buf : List ℕ) (i : ℕ) : ℕ := buf.getD i 0

/-- Write a buffer cell; out-of-bounds writes are dropped (only used via
the checked `gset`, or where bounds are guarded by the surrounding loop). -/
def upd : List ℕ → ℕ → ℕ → List ℕ
  | [], _, _ => []
  | _ :: xs, 0, v => v :: xs
  | x :: xs, i + 1, v => x :: upd xs i v

/-- Checked read, modeling Rust's panicking index `buf[i]`. -/
def gget (buf : List ℕ) (i : ℕ) : Option ℕ :=
  if i < buf.length then some (nth buf i) else none

/-- Checked write, modeling Rust's panicking index assignment `buf[i] = v`. -/
def gset (buf : List ℕ) (i v : ℕ) : Option (List ℕ) :=
  if i < buf.length then some (upd buf i v) else none

/-- Loop body state of `modexp`: one step per iteration of the Rust
`while exponent > 0` loop.  The fuel argument is structural; `modexp`
instantiates it with the initial exponent, which bounds the number of
iterations since the exponent halves each time.  The `% 2 ^ 64` are the
`u64` multiplications of the source. -/
def modexpGoF (modulus : ℕ) : ℕ → ℕ → ℕ → ℕ → ℕ
  | 0, _, _, out => out
  | fuel + 1, e, base, out =>
    if e = 0 then out
    else
      modexpGoF modulus fuel (e / 2) (base * base % 2 ^ 64 % modulus)
        (if e % 2 = 1 then out * base % 2 ^ 64 % modulus else out)

/-- `modexp` from the source: `(base ^ exponent) % modulus` by repeated
squaring.  The final `% 2 ^ 32` is the `out as u32` cast. -/
def modexp (base exponent modulus : ℕ) : ℕ :=
  modexpGoF modulus exponent exponent base 1 % 2 ^ 32

/-- Inner loop of `totient_table`: `while i < n { out[i] -= out[i]/p; i += p }`,
starting from `i = 2*p`.  Fuel is instantiated with `n`, enough since the
index advances by `p ≥ 2` each iteration. -/
def totientInnerF (n p : ℕ) : ℕ → List ℕ → ℕ → List ℕ
  | 0, buf, _ => buf
  | fuel + 1, buf, i =>
    if i < n then
      totientInnerF n p fuel (upd buf i (nth buf i - nth buf i / p)) (i + p)
    else buf

/-- Outer loop of `totient_table`: `for p in 2..n`, applying the prime test
`out[p] == p` and, on success, the decrement and the inner multiples loop. -/
def totientOuterF (n : ℕ) : ℕ → List ℕ → ℕ → List ℕ
  | 0, buf, _ => buf
  | fuel + 1, buf, p =>
    if p < n then
      totientOuterF n fuel
        (if nth buf p = p then
          totientInnerF n p n (upd buf p (nth buf p - 1)) (2 * p)
        else buf) (p + 1)
    else buf

/-- `totient_table` from the source: sieve of Euler totients on `(0..n).collect()`. -/
def totient_table (n : ℕ) : List ℕ :=
  totientOuterF n n (List.range n) 2

/-- One iteration of the main scan of `graham_table`, at index `n`.
Mirrors the `if n % 3 == 0` branch structure of the source; the
`% 2 ^ 32` is the `g_mod_n as u32` cast. -/
def grahamStep (max n : ℕ) (buf : List ℕ) : Option (List ℕ) :=
  if n % 3 = 0 then
    (gget buf n).bind fun a =>
      (gget buf (n / 3)).bind fun g_mod_n_thirds =>
        (gset buf n (3 * (a * g_mod_n_thirds % (n / 3)) % 2 ^ 32)).bind fun buf1 =>
          if n < max / 3 then gset buf1 (3 * n) a else some buf1
  else
    (gget buf n).bind fun totient_n =>
      (gget buf totient_n).bind fun r =>
        (gset buf n (modexp 3 r n)).bind fun buf1 =>
          if n < max / 3 then gset buf1 (3 * n) (modexp 3 (totient_n - 1) n)
          else some buf1

/-- The main scan `for n in 2..max`, generalized to an arbitrary upper
bound `u ≤ max` so that intermediate states of the scan can be named.
Fuel is instantiated with `u`, enough for the `u - 2` iterations. -/
def grahamLoopF (max u : ℕ) : ℕ → List ℕ → ℕ → Option (List ℕ)
  | 0, buf, _ => some buf
  | fuel + 1, buf, n =>
    if n < u then (grahamStep max n buf).bind fun b => grahamLoopF max u fuel b (n + 1)
    else some buf

/-- The two seed writes preceding the main loop: `buf[1] = 0; buf[3] = 0`. -/
def grahamSeed (max : ℕ) : Option (List ℕ) :=
  (gset (totient_table max) 1 0).bind fun b1 => gset b1 3 0

/-- `graham_table` from the source: seeds, then the scan over `2..max`.
`none` models a panic (out-of-bounds buffer access). -/
def graham_table (max : ℕ) : Option (List ℕ) :=
  (grahamSeed max).bind fun b => grahamLoopF max max max b 2

/-- The state of the buffer at the moment index `stop` of the main scan is
about to be processed: seeds, then the scan over `2..stop`. -/
def grahamUpTo (max stop : ℕ) : Option (List ℕ) :=
  (grahamSeed max).bind fun b => grahamLoopF max stop stop b 2

/-- A power tower of threes of height `k`: `tower (k+1) = 3 ^ tower k`. -/
def tower : ℕ → ℕ
  | 0 => 1
  | k + 1 => 3 ^ tower k

/-- The transitional-value relation of the specification: `a` relates a
tall tower's residue mod `m` to the residue one level down, i.e. for all
sufficiently large `k`, `a * 3 ^ k ≡ 3 ^ (k - 1) (mod m)`. -/
def TransVal (a m : ℕ) : Prop :=
  ∃ K, ∀ k, K ≤ k → a * 3 ^ k % m = 3 ^ (k - 1) % m

/-! ### Buffer lemmas -/

theorem length_upd (v : ℕ) : ∀ (l : List ℕ) (i : ℕ), (upd l i v).length = l.length
  | [], _ => rfl
  | _ :: _, 0 => rfl
  | _ :: xs, i + 1 => by simp [upd, length_upd v xs i]

theorem nth_upd_self (v : ℕ) :
    ∀ (l : List ℕ) (i : ℕ), i < l.length → nth (upd l i v) i = v
  | _ :: _, 0, _ => rfl
  | _ :: xs, i + 1, h => by
    simpa [upd, nth] using nth_upd_self v xs i (by simpa using h)

theorem nth_upd_ne (v : ℕ) :
    ∀ (l : List ℕ) (i j : ℕ), j ≠ i → nth (upd l i v) j = nth l j
  | [], _, _, _ => rfl
  | _ :: _, 0, 0, h => absurd rfl h
  | _ :: _, 0, _ + 1, _ => rfl
  | _ :: _, _ + 1, 0, _ => rfl
  | _ :: xs, i + 1, j + 1, h => by
    simpa [upd, nth] using nth_upd_ne v xs i j (by omega)

theorem nth_range {n i : ℕ} (h : i < n) : nth (List.range n) i = i := by
  simp [nth, List.getD, List.getElem?_range h]

/-! ### Correctness of `modexp` -/

theorem modexpGoF_spec (m : ℕ) (hm : 1 ≤ m) (hm32 : m < 2 ^ 32) :
    ∀ fuel e base out, e ≤ fuel → base < 2 ^ 32 → out < 2 ^ 32 →
      modexpGoF m fuel e base out % m = out * base ^ e % m
      ∧ (e = 0 → modexpGoF m fuel e base out = out)
      ∧ (1 ≤ e → modexpGoF m fuel e base out < m) := by
  intro fuel
  induction fuel with
  | zero =>
    intro e base out he _ _
    have he0 : e = 0 := by omega
    subst he0
    refine ⟨by simp [modexpGoF], fun _ => rfl, fun h => by omega⟩
  | succ fuel ih =>
    intro e base out he hbase hout
    by_cases he0 : e = 0
    · subst he0
      refine ⟨by simp [modexpGoF], fun _ => by simp [modexpGoF], fun h => by omega⟩
    · have hstep : modexpGoF m (fuel + 1) e base out =
          modexpGoF m fuel (e / 2) (base * base % 2 ^ 64 % m)
            (if e % 2 = 1 then out * base % 2 ^ 64 % m else out) := by
        simp [modexpGoF, he0]
      have hob : out * base % 2 ^ 64 = out * base :=
        Nat.mod_eq_of_lt (by calc out * base < 2 ^ 32 * 2 ^ 32 :=
            Nat.mul_lt_mul_of_lt_of_lt hout hbase
          _ = 2 ^ 64 := by norm_num)
      have hbb : base * base % 2 ^ 64 = base * base :=
        Nat.mod_eq_of_lt (by calc base * base < 2 ^ 32 * 2 ^ 32 :=
            Nat.mul_lt_mul_of_lt_of_lt hbase hbase
          _ = 2 ^ 64 := by norm_num)
      set out' := if e % 2 = 1 then out * base % 2 ^ 64 % m else out with hout'
      set base' := base * base % 2 ^ 64 % m with hbase'
      have hout'32 : out' < 2 ^ 32 := by
        rw [hout']
        split
        · exact lt_of_lt_of_le (Nat.mod_lt _ (by omega)) (by omega)
        · exact hout
      have hbase'32 : base' < 2 ^ 32 :=
        lt_of_lt_of_le (Nat.mod_lt _ (by omega)) (by omega)
      have hdiv : e / 2 ≤ fuel := by
        have : e / 2 < e := Nat.div_lt_self (by omega) (by omega)
        omega
      obtain ⟨ih1, ih2, ih3⟩ := ih (e / 2) base' out' hdiv hbase'32 hout'32
      have hcong : out' * base' ^ (e / 2) ≡ out * base ^ e [MOD m] := by
        have hb2 : base' ≡ base ^ 2 [MOD m] := by
          rw [hbase', hbb, pow_two]
          exact Nat.mod_modEq _ m
        have ho2 : out' ≡ out * base ^ (e % 2) [MOD m] := by
          rw [hout']
          split
          · next hodd =>
            rw [hodd, pow_one, hob]
            exact Nat.mod_modEq _ m
          · next heven =>
            have : e % 2 = 0 := by omega
            rw [this, pow_zero, mul_one]
        calc out' * base' ^ (e / 2)
            ≡ (out * base ^ (e % 2)) * (base ^ 2) ^ (e / 2) [MOD m] :=
              Nat.ModEq.mul ho2 (Nat.ModEq.pow _ hb2)
          _ = out * base ^ (e % 2 + 2 * (e / 2)) := by
              rw [← pow_mul, mul_assoc, ← pow_add]
          _ = out * base ^ e := by rw [Nat.mod_add_div e 2]
      refine ⟨?_, fun h => absurd h he0, ?_⟩
      · rw [hstep, (ih1.trans hcong : _)]
      · intro _
        rw [hstep]
        by_cases hd : e / 2 = 0
        · rw [hd] at ih2 ⊢
          rw [ih2 rfl]
          have : e % 2 = 1 := by omega
          rw [hout', if_pos this]
          exact Nat.mod_lt _ (by omega)
        · exact ih3 (by omega)

theorem modexp_correct {b e m : ℕ} (hb : b < 2 ^ 32) (hm32 : m < 2 ^ 32)
    (hm : 1 ≤ m) (h : 2 ≤ m ∨ 1 ≤ e) : modexp b e m = b ^ e % m := by
  obtain ⟨h1, h2, h3⟩ := modexpGoF_spec m hm hm32 e e b 1 le_rfl hb (by norm_num)
  by_cases he : e = 0
  · subst he
    rcases h with h | h
    · rw [modexp, h2 rfl]
      have : b ^ 0 % m = 1 := by
        rw [pow_zero]
        exact Nat.mod_eq_of_lt (by omega)
      rw [this]
      norm_num
    · omega
  · have hlt := h3 (by omega)
    have hval : modexpGoF m e e b 1 = b ^ e % m := by
      have := h1
      rw [Nat.mod_eq_of_lt hlt, one_mul] at this
      exact this
    rw [modexp, hval,
      Nat.mod_eq_of_lt (lt_of_lt_of_le (Nat.mod_lt _ (by omega)) (by omega))]

/-! ### Correctness of the totient sieve -/

theorem totientInnerF_length (n p : ℕ) :
    ∀ fuel buf i, (totientInnerF n p fuel buf i).length = buf.length
  | 0, _, _ => rfl
  | fuel + 1, buf, i => by
    by_cases h : i < n
    · simp only [totientInnerF, if_pos h]
      rw [totientInnerF_length n p fuel, length_upd]
    · simp [totientInnerF, if_neg h]

theorem totientOuterF_length (n : ℕ) :
    ∀ fuel buf p, (totientOuterF n fuel buf p).length = buf.length
  | 0, _, _ => rfl
  | fuel + 1, buf, p => by
    by_cases h : p < n
    · simp only [totientOuterF, if_pos h]
      rw [totientOuterF_length n fuel]
      split
      · rw [totientInnerF_length, length_upd]
      · rfl
    · simp [totientOuterF, if_neg h]

theorem totient_table_length (n : ℕ) : (totient_table n).length = n := by
  rw [totient_table, totientOuterF_length, List.length_range]

theorem totientInnerF_nth (n p : ℕ) (hp : 1 ≤ p) :
    ∀ fuel i buf, n - i ≤ fuel → n ≤ buf.length → ∀ j,
      nth (totientInnerF n p fuel buf i) j =
        if i ≤ j ∧ j < n ∧ p ∣ j - i then nth buf j - nth buf j / p
        else nth buf j := by
  intro fuel
  induction fuel with
  | zero =>
    intro i buf hfuel _ j
    have hni : ¬(i ≤ j ∧ j < n ∧ p ∣ j - i) := by
      rintro ⟨h1, h2, -⟩
      omega
    rw [totientInnerF, if_neg hni]
  | succ fuel ih =>
    intro i buf hfuel hlen j
    by_cases hin : i < n
    · rw [totientInnerF, if_pos hin]
      rw [ih (i + p) _ (by omega) (by rw [length_upd]; exact hlen)]
      by_cases hj : j = i
      · subst hj
        have hni : ¬(j + p ≤ j ∧ j < n ∧ p ∣ j - (j + p)) := by
          rintro ⟨h, -, -⟩
          omega
        rw [if_neg hni, if_pos ⟨le_rfl, hin, by simp⟩,
          nth_upd_self _ _ _ (by omega)]
      · rw [nth_upd_ne _ _ _ _ hj]
        by_cases hc : i ≤ j ∧ j < n ∧ p ∣ j - i
        · obtain ⟨h1, h2, c, hdvd⟩ := hc
          have hc1 : 1 ≤ c := by
            rcases c with _ | c
            · simp at hdvd
              omega
            · omega
          obtain ⟨c, rfl⟩ : ∃ d, c = d + 1 := ⟨c - 1, by omega⟩
          have hmul : p * (c + 1) = p * c + p := by ring
          have hj2 : j = i + p * c + p := by omega
          rw [if_pos ⟨by omega, h2, c, by omega⟩,
            if_pos ⟨h1, h2, c + 1, hdvd⟩]
        · rw [if_neg hc, if_neg]
          rintro ⟨h1, h2, c, hdvd⟩
          refine hc ⟨by omega, h2, c + 1, ?_⟩
          have hmul : p * (c + 1) = p * c + p := by ring
          omega
    · have hni : ¬(i ≤ j ∧ j < n ∧ p ∣ j - i) := by
        rintro ⟨h1, h2, -⟩
        omega
      rw [totientInnerF, if_neg hin, if_neg hni]

theorem sieve_prime_update (n p : ℕ) (buf : List ℕ) (hlen : buf.length = n)
    (hp1 : 1 ≤ p) (hpn : p < n) (hbp : nth buf p = p) :
    ∀ j, j < n →
      nth (totientInnerF n p n (upd buf p (nth buf p - 1)) (2 * p)) j =
        if p ∣ j ∧ p ≤ j then nth buf j - nth buf j / p else nth buf j := by
  intro j hj
  rw [totientInnerF_nth n p hp1 n (2 * p) _ (by omega)
    (by rw [length_upd]; omega)]
  by_cases hjp : j = p
  · subst hjp
    have hni : ¬(2 * j ≤ j ∧ j < n ∧ j ∣ j - 2 * j) := by
      rintro ⟨h, -, -⟩
      omega
    rw [if_neg hni, if_pos ⟨dvd_refl j, le_rfl⟩, nth_upd_self _ _ _ (by omega),
      hbp, Nat.div_self (by omega)]
  · rw [nth_upd_ne _ _ _ _ hjp]
    by_cases hc : p ∣ j ∧ p ≤ j
    · obtain ⟨⟨c, rfl⟩, hle⟩ := hc
      have hc2 : 2 ≤ c := by
        rcases c with _ | _ | c
        · omega
        · omega
        · omega
      obtain ⟨c, rfl⟩ : ∃ d, c = d + 2 := ⟨c - 2, by omega⟩
      have hmul : p * (c + 2) = p * c + 2 * p := by ring
      rw [if_pos ⟨by omega, hj, c, by omega⟩, if_pos ⟨⟨c + 2, rfl⟩, hle⟩]
    · rw [if_neg hc, if_neg]
      rintro ⟨h1, h2, c, hdvd⟩
      refine hc ⟨⟨c + 2, ?_⟩, by omega⟩
      have hmul : p * (c + 2) = p * c + 2 * p := by ring
      omega

/-- Product of the prime factors of `i` that are below `P`: the primes the
sieve has already applied to cell `i` once the outer loop has passed them. -/
def radTo (P i : ℕ) : ℕ := ∏ q ∈ i.primeFactors.filter (fun q => q < P), q

/-- Product of `q - 1` over the prime factors of `i` below `P`. -/
def subTo (P i : ℕ) : ℕ := ∏ q ∈ i.primeFactors.filter (fun q => q < P), (q - 1)

/-- Loop invariant of the outer sieve loop before processing `p = P`:
each cell holds `i` with the Euler factor `(q-1)/q` applied for every
prime `q < P` dividing `i`, stated multiplicatively. -/
def SieveInv (n P : ℕ) (buf : List ℕ) : Prop :=
  ∀ i, i < n → nth buf i * radTo P i = i * subTo P i

theorem radTo_pos (P i : ℕ) : 0 < radTo P i := by
  refine Finset.prod_pos fun q hq => ?_
  simp only [Finset.mem_filter] at hq
  exact (Nat.prime_of_mem_primeFactors hq.1).pos

theorem radTo_two (i : ℕ) : radTo 2 i = 1 := by
  rw [radTo, Finset.filter_false_of_mem, Finset.prod_empty]
  intro q hq
  simpa using (Nat.prime_of_mem_primeFactors hq).two_le

theorem subTo_two (i : ℕ) : subTo 2 i = 1 := by
  rw [subTo, Finset.filter_false_of_mem, Finset.prod_empty]
  intro q hq
  simpa using (Nat.prime_of_mem_primeFactors hq).two_le

theorem filter_succ_of_mem {P i : ℕ} (h : P ∈ i.primeFactors) :
    i.primeFactors.filter (fun q => q < P + 1) =
      insert P (i.primeFactors.filter (fun q => q < P)) := by
  ext q
  simp only [Finset.mem_filter, Finset.mem_insert]
  constructor
  · rintro ⟨hq, hlt⟩
    rcases eq_or_ne q P with h' | h'
    · exact Or.inl h'
    · exact Or.inr ⟨hq, by omega⟩
  · rintro (rfl | ⟨hq, hlt⟩)
    · exact ⟨h, by omega⟩
    · exact ⟨hq, by omega⟩

theorem filter_succ_of_not_mem {P i : ℕ} (h : P ∉ i.primeFactors) :
    i.primeFactors.filter (fun q => q < P + 1) =
      i.primeFactors.filter (fun q => q < P) := by
  ext q
  simp only [Finset.mem_filter]
  constructor
  · rintro ⟨hq, hlt⟩
    refine ⟨hq, ?_⟩
    rcases eq_or_ne q P with rfl | h'
    · exact absurd hq h
    · omega
  · rintro ⟨hq, hlt⟩
    exact ⟨hq, by omega⟩

theorem radTo_stable {P i : ℕ} (h : i < P) :
    radTo P i = ∏ q ∈ i.primeFactors, q := by
  rw [radTo, Finset.filter_true_of_mem]
  intro q hq
  exact lt_of_le_of_lt (Nat.le_of_mem_primeFactors hq) h

theorem subTo_stable {P i : ℕ} (h : i < P) :
    subTo P i = ∏ q ∈ i.primeFactors, (q - 1) := by
  rw [subTo, Finset.filter_true_of_mem]
  intro q hq
  exact lt_of_le_of_lt (Nat.le_of_mem_primeFactors hq) h

theorem sieve_test {n P : ℕ} {buf : List ℕ} (hinv : SieveInv n P buf)
    (hP : 2 ≤ P) (hPn : P < n) : nth buf P = P ↔ P.Prime := by
  have hspec := hinv P hPn
  constructor
  · intro htest
    by_contra hnp
    have hqp : P.minFac.Prime := Nat.minFac_prime (by omega)
    have hq : P.minFac ∈ P.primeFactors.filter (fun q => q < P) := by
      have hqlt : P.minFac < P := by
        have h1 : P.minFac ≤ P := Nat.minFac_le (by omega)
        rcases lt_or_eq_of_le h1 with h | h
        · exact h
        · exact absurd (h ▸ hqp) hnp
      simp only [Finset.mem_filter, Nat.mem_primeFactors]
      exact ⟨⟨hqp, Nat.minFac_dvd P, by omega⟩, hqlt⟩
    have hlt : subTo P P < radTo P P := by
      refine Finset.prod_lt_prod_of_nonempty ?_ ?_ ⟨_, hq⟩
      · intro q hq'
        simp only [Finset.mem_filter] at hq'
        have := (Nat.prime_of_mem_primeFactors hq'.1).two_le
        omega
      · intro q hq'
        simp only [Finset.mem_filter] at hq'
        have := (Nat.prime_of_mem_primeFactors hq'.1).two_le
        omega
    rw [htest] at hspec
    have := mul_lt_mul_of_pos_left hlt (show 0 < P by omega)
    omega
  · intro hp
    have hE : P.primeFactors.filter (fun q => q < P) = ∅ := by
      rw [hp.primeFactors, Finset.filter_singleton, if_neg (lt_irrefl P)]
    rw [radTo, subTo, hE, Finset.prod_empty, Finset.prod_empty,
      mul_one, mul_one] at hspec
    exact hspec

theorem sieve_step (n P : ℕ) (buf : List ℕ) (hlen : buf.length = n) (hP : 2 ≤ P)
    (hPn : P < n) (hinv : SieveInv n P buf) :
    SieveInv n (P + 1)
      (if nth buf P = P then
        totientInnerF n P n (upd buf P (nth buf P - 1)) (2 * P)
      else buf) := by
  by_cases htest : nth buf P = P
  · rw [if_pos htest]
    have hprime : P.Prime := (sieve_test hinv hP hPn).mp htest
    intro i hi
    rw [sieve_prime_update n P buf hlen (by omega) hPn htest i hi]
    by_cases hc : P ∣ i ∧ P ≤ i
    · obtain ⟨hdvd, hle⟩ := hc
      have hi0 : i ≠ 0 := by omega
      have hmem : P ∈ i.primeFactors :=
        Nat.mem_primeFactors.mpr ⟨hprime, hdvd, hi0⟩
      have hcop : Nat.Coprime P (radTo P i) := by
        refine Nat.Coprime.prod_right fun q hq => ?_
        simp only [Finset.mem_filter] at hq
        exact (Nat.coprime_primes hprime
          (Nat.prime_of_mem_primeFactors hq.1)).mpr (by omega)
      have hdvd2 : P ∣ nth buf i := by
        refine hcop.dvd_of_dvd_mul_right ?_
        rw [hinv i hi]
        exact (hdvd.mul_right (subTo P i))
      obtain ⟨t, ht⟩ := hdvd2
      rw [if_pos ⟨hdvd, hle⟩, ht, Nat.mul_div_cancel_left t (by omega)]
      rw [radTo, filter_succ_of_mem hmem, Finset.prod_insert (by simp), ← radTo,
        subTo, filter_succ_of_mem hmem, Finset.prod_insert (by simp), ← subTo]
      have key : P * t - t = (P - 1) * t := by rw [tsub_mul, one_mul]
      rw [key]
      have h2 : (P - 1) * t * (P * radTo P i) = (P - 1) * (P * t * radTo P i) := by
        ring
      rw [h2, ← ht, hinv i hi]
      ring
    · rw [if_neg hc]
      have hnm : P ∉ i.primeFactors := by
        rw [Nat.mem_primeFactors]
        rintro ⟨-, hdvd, hne⟩
        exact hc ⟨hdvd, Nat.le_of_dvd (by omega) hdvd⟩
      rw [radTo, filter_succ_of_not_mem hnm, ← radTo,
        subTo, filter_succ_of_not_mem hnm, ← subTo]
      exact hinv i hi
  · rw [if_neg htest]
    have hnp : ¬P.Prime := fun hp => htest ((sieve_test hinv hP hPn).mpr hp)
    intro i hi
    have hnm : P ∉ i.primeFactors := fun hmem =>
      hnp (Nat.prime_of_mem_primeFactors hmem)
    rw [radTo, filter_succ_of_not_mem hnm, ← radTo,
      subTo, filter_succ_of_not_mem hnm, ← subTo]
    exact hinv i hi

theorem totientOuterF_inv (n : ℕ) :
    ∀ fuel P buf, 2 ≤ P → n - P ≤ fuel → buf.length = n → SieveInv n P buf →
      ∀ i, i < n →
        nth (totientOuterF n fuel buf P) i * ∏ q ∈ i.primeFactors, q =
          i * ∏ q ∈ i.primeFactors, (q - 1) := by
  intro fuel
  induction fuel with
  | zero =>
    intro P buf hP hfuel hlen hinv i hi
    rw [totientOuterF]
    have := hinv i hi
    rwa [radTo_stable (by omega), subTo_stable (by omega)] at this
  | succ fuel ih =>
    intro P buf hP hfuel hlen hinv i hi
    by_cases hPn : P < n
    · rw [totientOuterF, if_pos hPn]
      have hlen' : (if nth buf P = P then
          totientInnerF n P n (upd buf P (nth buf P - 1)) (2 * P)
        else buf).length = n := by
        split
        · rw [totientInnerF_length, length_upd]
          exact hlen
        · exact hlen
      exact ih (P + 1) _ (by omega) (by omega) hlen'
        (sieve_step n P buf hlen hP hPn hinv) i hi
    · rw [totientOuterF, if_neg hPn]
      have := hinv i hi
      rwa [radTo_stable (by omega), subTo_stable (by omega)] at this

theorem totient_table_phi {n i : ℕ} (h1 : 1 ≤ i) (hin : i < n) :
    nth (totient_table n) i = Nat.totient i := by
  have hbase : SieveInv n 2 (List.range n) := by
    intro j hj
    rw [nth_range hj, radTo_two, subTo_two]
  have h := totientOuterF_inv n n 2 (List.range n) le_rfl (by omega)
    (List.length_range n) hbase i hin
  have hphi := Nat.totient_mul_prod_primeFactors i
  have hpos : 0 < ∏ q ∈ i.primeFactors, q :=
    Finset.prod_pos fun q hq => (Nat.prime_of_mem_primeFactors hq).pos
  rw [totient_table]
  exact Nat.eq_of_mul_eq_mul_right hpos (h.trans hphi.symm)

/-! ### The main scan: totality, framing, and preserved cells -/

theorem grahamStep_spec (max n : ℕ) (buf : List ℕ) (hlen : buf.length = max)
    (h2 : 2 ≤ n) (hn : n < max)
    (hread : n % 3 ≠ 0 → nth buf n < max) :
    ∃ out, grahamStep max n buf = some out ∧ out.length = max ∧
      (∀ j, j ≠ n → j ≠ 3 * n → nth out j = nth buf j) ∧
      (n % 3 = 0 →
        nth out n = 3 * (nth buf n * nth buf (n / 3) % (n / 3)) % 2 ^ 32) ∧
      (n % 3 ≠ 0 → nth out n = modexp 3 (nth buf (nth buf n)) n) := by
  have hgn : gget buf n = some (nth buf n) := by
    rw [gget, if_pos (by omega)]
  by_cases hmod : n % 3 = 0
  · set v := 3 * (nth buf n * nth buf (n / 3) % (n / 3)) % 2 ^ 32 with hv
    have hq : gget buf (n / 3) = some (nth buf (n / 3)) := by
      rw [gget, if_pos (by have := Nat.div_le_self n 3; omega)]
    have hset : gset buf n v = some (upd buf n v) := by
      rw [gset, if_pos (by omega)]
    rw [grahamStep, if_pos hmod, hgn, Option.some_bind, hq, Option.some_bind,
      hset, Option.some_bind]
    by_cases h3 : n < max / 3
    · have h3n : 3 * n < max := by omega
      rw [if_pos h3, gset, if_pos (by rw [length_upd]; omega)]
      refine ⟨_, rfl, by rw [length_upd, length_upd]; exact hlen, ?_, ?_, ?_⟩
      · intro j hj1 hj2
        rw [nth_upd_ne _ _ _ _ hj2, nth_upd_ne _ _ _ _ hj1]
      · intro _
        rw [nth_upd_ne _ _ _ _ (by omega), nth_upd_self _ _ _ (by omega)]
      · intro h
        exact absurd hmod h
    · rw [if_neg h3]
      refine ⟨_, rfl, by rw [length_upd]; exact hlen, ?_, ?_, ?_⟩
      · intro j hj1 _
        rw [nth_upd_ne _ _ _ _ hj1]
      · intro _
        rw [nth_upd_self _ _ _ (by omega)]
      · intro h
        exact absurd hmod h
  · set v := modexp 3 (nth buf (nth buf n)) n with hv
    have ht : gget buf (nth buf n) = some (nth buf (nth buf n)) := by
      rw [gget, if_pos (by have := hread hmod; omega)]
    have hset : gset buf n v = some (upd buf n v) := by
      rw [gset, if_pos (by omega)]
    rw [grahamStep, if_neg hmod, hgn, Option.some_bind, ht, Option.some_bind,
      hset, Option.some_bind]
    by_cases h3 : n < max / 3
    · have h3n : 3 * n < max := by omega
      rw [if_pos h3, gset, if_pos (by rw [length_upd]; omega)]
      refine ⟨_, rfl, by rw [length_upd, length_upd]; exact hlen, ?_, ?_, ?_⟩
      · intro j hj1 hj2
        rw [nth_upd_ne _ _ _ _ hj2, nth_upd_ne _ _ _ _ hj1]
      · intro h
        exact absurd h hmod
      · intro _
        rw [nth_upd_ne _ _ _ _ (by omega), nth_upd_self _ _ _ (by omega)]
    · rw [if_neg h3]
      refine ⟨_, rfl, by rw [length_upd]; exact hlen, ?_, ?_, ?_⟩
      · intro j hj1 _
        rw [nth_upd_ne _ _ _ _ hj1]
      · intro h
        exact absurd h hmod
      · intro _
        rw [nth_upd_self _ _ _ (by omega)]

theorem grahamLoopF_spec (max u : ℕ) (hu : u ≤ max) :
    ∀ fuel n buf, u - n ≤ fuel → 2 ≤ n → buf.length = max →
      (∀ i, n ≤ i → i < max → i % 3 ≠ 0 → nth buf i = Nat.totient i) →
      ∃ out, grahamLoopF max u fuel buf n = some out ∧ out.length = max ∧
        (∀ j, j < n → nth out j = nth buf j) ∧
        (∀ i, u ≤ i → n ≤ i → i < max → i % 3 ≠ 0 →
          nth out i = Nat.totient i) := by
  intro fuel
  induction fuel with
  | zero =>
    intro n buf hfuel h2 hlen hwinv
    rw [grahamLoopF]
    exact ⟨buf, rfl, hlen, fun j _ => rfl,
      fun i _ hi1 hi2 hi3 => hwinv i hi1 hi2 hi3⟩
  | succ fuel ih =>
    intro n buf hfuel h2 hlen hwinv
    by_cases hnu : n < u
    · have hread : n % 3 ≠ 0 → nth buf n < max := by
        intro hmod
        rw [hwinv n le_rfl (by omega) hmod]
        have := Nat.totient_lt n (by omega)
        omega
      obtain ⟨out1, hstep, hlen1, hframe1, -, -⟩ :=
        grahamStep_spec max n buf hlen h2 (by omega) hread
      have hwinv1 : ∀ i, n + 1 ≤ i → i < max → i % 3 ≠ 0 →
          nth out1 i = Nat.totient i := by
        intro i hi1 hi2 hi3
        rw [hframe1 i (by omega) (by omega)]
        exact hwinv i (by omega) hi2 hi3
      obtain ⟨out, hloop, hlenout, hframe, hwend⟩ :=
        ih (n + 1) out1 (by omega) (by omega) hlen1 hwinv1
      refine ⟨out, ?_, hlenout, ?_, ?_⟩
      · rw [grahamLoopF, if_pos hnu, hstep, Option.some_bind, hloop]
      · intro j hj
        rw [hframe j (by omega), hframe1 j (by omega) (by omega)]
      · intro i hi1 hi2 hi3 hi4
        exact hwend i hi1 (by omega) hi3 hi4
    · rw [grahamLoopF, if_neg hnu]
      exact ⟨buf, rfl, hlen, fun j _ => rfl,
        fun i _ hi1 hi2 hi3 => hwinv i hi1 hi2 hi3⟩

theorem grahamSeed_eq {max : ℕ} (h4 : 4 ≤ max) :
    grahamSeed max = some (upd (upd (totient_table max) 1 0) 3 0) := by
  rw [grahamSeed, gset, if_pos (by rw [totient_table_length]; omega),
    Option.some_bind, gset, if_pos (by rw [length_upd, totient_table_length]; omega)]

theorem grahamSeed_some {max : ℕ} {b : List ℕ} (h : grahamSeed max = some b) :
    4 ≤ max ∧ b = upd (upd (totient_table max) 1 0) 3 0 := by
  rw [grahamSeed, gset] at h
  split_ifs at h with h1
  · rw [Option.some_bind, gset] at h
    split_ifs at h with h3
    · rw [totient_table_length] at h1
      rw [length_upd, totient_table_length] at h3
      exact ⟨by omega, (Option.some.inj h).symm⟩
  · exact absurd h (by simp)

theorem grahamLoopF_unfold (max u fuel : ℕ) (buf : List ℕ) (n : ℕ) (h : n < u) :
    grahamLoopF max u (fuel + 1) buf n =
      (grahamStep max n buf).bind fun b => grahamLoopF max u fuel b (n + 1) := by
  rw [grahamLoopF, if_pos h]

theorem graham_table_spec {max : ℕ} (h4 : 4 ≤ max) :
    ∃ out, graham_table max = some out ∧ out.length = max ∧
      nth out 1 = 0 ∧ nth out 2 = 1 := by
  have hseed := grahamSeed_eq h4
  set b := upd (upd (totient_table max) 1 0) 3 0 with hb
  have hlenb : b.length = max := by
    rw [hb, length_upd, length_upd, totient_table_length]
  have hb1 : nth b 1 = 0 := by
    rw [hb, nth_upd_ne _ _ _ _ (by omega), nth_upd_self _ _ _
      (by rw [totient_table_length]; omega)]
  have hb2 : nth b 2 = 1 := by
    rw [hb, nth_upd_ne _ _ _ _ (by omega), nth_upd_ne _ _ _ _ (by omega),
      totient_table_phi (by omega) (by omega)]
    decide
  have hbt : ∀ i, 2 ≤ i → i < max → i % 3 ≠ 0 → nth b i = Nat.totient i := by
    intro i hi1 hi2 hi3
    rw [hb, nth_upd_ne _ _ _ _ (by omega), nth_upd_ne _ _ _ _ (by omega)]
    exact totient_table_phi (by omega) hi2
  obtain ⟨out1, hstep, hlen1, hframe1, -, hval⟩ :=
    grahamStep_spec max 2 b hlenb le_rfl (by omega)
      (fun _ => by rw [hb2]; omega)
  have hval2 : nth out1 2 = 1 := by
    rw [hval (by decide), hb2, hb1]
    decide
  have hwinv1 : ∀ i, 3 ≤ i → i < max → i % 3 ≠ 0 →
      nth out1 i = Nat.totient i := by
    intro i hi1 hi2 hi3
    rw [hframe1 i (by omega) (by omega)]
    exact hbt i (by omega) hi2 hi3
  obtain ⟨out, hloop, hlenout, hframe, -⟩ :=
    grahamLoopF_spec max max le_rfl (max - 1) 3 out1 (by omega) (by omega)
      hlen1 hwinv1
  have hm1 : max = (max - 1) + 1 := by omega
  have hunf := grahamLoopF_unfold max max (max - 1) b 2 (by omega)
  rw [← hm1] at hunf
  refine ⟨out, ?_, hlenout, ?_, ?_⟩
  · rw [graham_table, hseed, Option.some_bind, hunf, hstep,
      Option.some_bind, hloop]
  · rw [hframe 1 (by omega), hframe1 1 (by omega) (by omega), hb1]
  · rw [hframe 2 (by omega), hval2]

theorem graham_table_none {max : ℕ} (h : max ≤ 3) : graham_table max = none := by
  interval_cases max <;> decide

theorem grahamUpTo_totient {max n : ℕ} {buf : List ℕ}
    (h2 : 2 ≤ n) (hn : n < max) (hmod : n % 3 ≠ 0)
    (hup : grahamUpTo max n = some buf) : nth buf n = Nat.totient n := by
  rw [grahamUpTo] at hup
  cases hseed : grahamSeed max with
  | none =>
    rw [hseed] at hup
    simp at hup
  | some b =>
    rw [hseed, Option.some_bind] at hup
    obtain ⟨h4, rfl⟩ := grahamSeed_some hseed
    have hlenb : (upd (upd (totient_table max) 1 0) 3 0).length = max := by
      rw [length_upd, length_upd, totient_table_length]
    have hbt : ∀ i, 2 ≤ i → i < max → i % 3 ≠ 0 →
        nth (upd (upd (totient_table max) 1 0) 3 0) i = Nat.totient i := by
      intro i hi1 hi2 hi3
      rw [nth_upd_ne _ _ _ _ (by omega), nth_upd_ne _ _ _ _ (by omega)]
      exact totient_table_phi (by omega) hi2
    obtain ⟨out, hloop, -, -, hwend⟩ :=
      grahamLoopF_spec max n (by omega) n 2 _ (by omega) le_rfl hlenb hbt
    rw [hloop] at hup
    obtain rfl := Option.some.inj hup
    exact hwend n le_rfl h2 hn hmod

/-! ### Instrumented scan recording the arguments of each `modexp` call -/

/-- Same as `grahamStep`, but also returns the `(base, exponent, modulus)`
triple of every `modexp` call the iteration makes, in call order. -/
def grahamStepT (max n : ℕ) (buf : List ℕ) :
    Option (List ℕ × List (ℕ × ℕ × ℕ)) :=
  if n % 3 = 0 then
    (gget buf n).bind fun a =>
      (gget buf (n / 3)).bind fun g_mod_n_thirds =>
        (gset buf n (3 * (a * g_mod_n_thirds % (n / 3)) % 2 ^ 32)).bind fun buf1 =>
          if n < max / 3 then
            (gset buf1 (3 * n) a).bind fun buf2 => some (buf2, [])
          else some (buf1, [])
  else
    (gget buf n).bind fun totient_n =>
      (gget buf totient_n).bind fun r =>
        (gset buf n (modexp 3 r n)).bind fun buf1 =>
          if n < max / 3 then
            (gset buf1 (3 * n) (modexp 3 (totient_n - 1) n)).bind fun buf2 =>
              some (buf2, [(3, r, n), (3, totient_n - 1, n)])
          else some (buf1, [(3, r, n)])

/-- The instrumented scan, accumulating the `modexp` call arguments. -/
def grahamLoopTF (max u : ℕ) :
    ℕ → List ℕ → ℕ → List (ℕ × ℕ × ℕ) → Option (List ℕ × List (ℕ × ℕ × ℕ))
  | 0, buf, _, acc => some (buf, acc)
  | fuel + 1, buf, n, acc =>
    if n < u then
      (grahamStepT max n buf).bind fun r =>
        grahamLoopTF max u fuel r.1 (n + 1) (acc ++ r.2)
    else some (buf, acc)

/-- `graham_table` together with the list of all `modexp` calls it makes. -/
def grahamTrace (max : ℕ) : Option (List ℕ × List (ℕ × ℕ × ℕ)) :=
  (grahamSeed max).bind fun b => grahamLoopTF max max max b 2 []

theorem grahamStepT_fst (max n : ℕ) (buf : List ℕ) :
    (grahamStepT max n buf).map Prod.fst = grahamStep max n buf := by
  rw [grahamStepT, grahamStep]
  by_cases hmod : n % 3 = 0
  · rw [if_pos hmod, if_pos hmod]
    cases h1 : gget buf n with
    | none => simp
    | some a =>
      simp only [Option.some_bind]
      cases h2 : gget buf (n / 3) with
      | none => simp
      | some g =>
        simp only [Option.some_bind]
        cases h3 : gset buf n (3 * (a * g % (n / 3)) % 2 ^ 32) with
        | none => simp
        | some b1 =>
          simp only [Option.some_bind]
          by_cases h4 : n < max / 3
          · rw [if_pos h4, if_pos h4]
            cases h5 : gset b1 (3 * n) a with
            | none => simp
            | some b2 => simp
          · rw [if_neg h4, if_neg h4]
            simp
  · rw [if_neg hmod, if_neg hmod]
    cases h1 : gget buf n with
    | none => simp
    | some t =>
      simp only [Option.some_bind]
      cases h2 : gget buf t with
      | none => simp
      | some r =>
        simp only [Option.some_bind]
        cases h3 : gset buf n (modexp 3 r n) with
        | none => simp
        | some b1 =>
          simp only [Option.some_bind]
          by_cases h4 : n < max / 3
          · rw [if_pos h4, if_pos h4]
            cases h5 : gset b1 (3 * n) (modexp 3 (t - 1) n) with
            | none => simp
            | some b2 => simp
          · rw [if_neg h4, if_neg h4]
            simp

theorem grahamLoopTF_fst (max u : ℕ) :
    ∀ fuel n buf acc,
      (grahamLoopTF max u fuel buf n acc).map Prod.fst =
        grahamLoopF max u fuel buf n := by
  intro fuel
  induction fuel with
  | zero => intro n buf acc; rfl
  | succ fuel ih =>
    intro n buf acc
    rw [grahamLoopTF, grahamLoopF]
    by_cases h : n < u
    · rw [if_pos h, if_pos h, ← grahamStepT_fst]
      cases hs : grahamStepT max n buf with
      | none => simp
      | some r =>
        simp only [Option.map_some', Option.some_bind]
        exact ih (n + 1) r.1 (acc ++ r.2)
    · rw [if_neg h, if_neg h]
      simp

theorem grahamTrace_fst (max : ℕ) :
    (grahamTrace max).map Prod.fst = graham_table max := by
  rw [grahamTrace, graham_table]
  cases grahamSeed max with
  | none => rfl
  | some b =>
    simp only [Option.some_bind]
    exact grahamLoopTF_fst max max max 2 b []

theorem grahamStepT_moduli {max n : ℕ} {buf : List ℕ}
    {r : List ℕ × List (ℕ × ℕ × ℕ)}
    (h : grahamStepT max n buf = some r) : ∀ c ∈ r.2, c.2.2 = n := by
  rw [grahamStepT] at h
  by_cases hmod : n % 3 = 0
  · rw [if_pos hmod] at h
    simp only [Option.bind_eq_some] at h
    obtain ⟨a, -, g, -, b1, -, h⟩ := h
    by_cases h4 : n < max / 3
    · rw [if_pos h4] at h
      simp only [Option.bind_eq_some] at h
      obtain ⟨b2, -, h⟩ := h
      obtain rfl := Option.some.inj h
      intro c hc
      simp at hc
    · rw [if_neg h4] at h
      obtain rfl := Option.some.inj h
      intro c hc
      simp at hc
  · rw [if_neg hmod] at h
    simp only [Option.bind_eq_some] at h
    obtain ⟨t, -, r1, -, b1, -, h⟩ := h
    by_cases h4 : n < max / 3
    · rw [if_pos h4] at h
      simp only [Option.bind_eq_some] at h
      obtain ⟨b2, -, h⟩ := h
      obtain rfl := Option.some.inj h
      intro c hc
      rcases List.mem_cons.mp hc with rfl | hc
      · rfl
      · rcases List.mem_cons.mp hc with rfl | hc
        · rfl
        · simp at hc
    · rw [if_neg h4] at h
      obtain rfl := Option.some.inj h
      intro c hc
      rcases List.mem_cons.mp hc with rfl | hc
      · rfl
      · simp at hc

theorem grahamLoopTF_moduli (max u : ℕ) :
    ∀ fuel n buf acc out, 2 ≤ n →
      grahamLoopTF max u fuel buf n acc = some out →
      (∀ c ∈ acc, 2 ≤ c.2.2) → ∀ c ∈ out.2, 2 ≤ c.2.2 := by
  intro fuel
  induction fuel with
  | zero =>
    intro n buf acc out h2 hout hacc
    obtain rfl := Option.some.inj hout
    exact hacc
  | succ fuel ih =>
    intro n buf acc out h2 hout hacc
    rw [grahamLoopTF] at hout
    by_cases h : n < u
    · rw [if_pos h] at hout
      simp only [Option.bind_eq_some] at hout
      obtain ⟨r, hr, hout⟩ := hout
      refine ih (n + 1) r.1 (acc ++ r.2) out (by omega) hout ?_
      intro c hc
      rcases List.mem_append.mp hc with hc | hc
      · exact hacc c hc
      · rw [grahamStepT_moduli hr c hc]
        omega
    · rw [if_neg h] at hout
      obtain rfl := Option.some.inj hout
      exact hacc

/-! ### Residues of tall power towers at small moduli -/

theorem tower_pos (k : ℕ) : 1 ≤ tower k := by
  cases k with
  | zero => exact le_rfl
  | succ k => exact Nat.one_le_pow _ _ (by norm_num)

theorem pow3_mod6 (m : ℕ) : 3 ^ (m + 1) % 6 = 3 := by
  induction m with
  | zero => rfl
  | succ m ih =>
    rw [pow_succ, Nat.mul_mod, ih]

theorem tower_mod6 (k : ℕ) : tower (k + 1) % 6 = 3 := by
  obtain ⟨m, hm⟩ : ∃ m, tower k = m + 1 := ⟨tower k - 1, by have := tower_pos k; omega⟩
  rw [show tower (k + 1) = 3 ^ tower k from rfl, hm, pow3_mod6]

theorem pow3_mod2 (j : ℕ) : 3 ^ j % 2 = 1 := by
  rw [Nat.pow_mod]
  simp

/-! ### The claims -/

/-- Claim C1.  The claim states that after `graham_table(N)` completes, the
buffer satisfies `buf[i] = G mod i` for every `i` in `[0, N)`, `G` being any
sufficiently tall power tower of threes.  This fails on the code: for
`N = 7` the returned buffer has `buf[6] = 0`, yet every power tower of
threes of height at least 1 is congruent to `3` modulo `6`.  (Cause: the
ahead-of-scan write guard is `n < max / 3` with truncating division, which
skips the transitional write for cell `3 * (max / 3)` whenever
`max % 3 ≠ 0`, so that cell is later processed with the leftover totient
value instead of the transitional coefficient.) -/
theorem claimC1 :
    (graham_table 7).map (fun b => nth b 6) = some 0 ∧
      ∀ k, tower (k + 1) % 6 = 3 :=
  ⟨by decide, tower_mod6⟩

/-- Claim C2.  For every `N` and every `i` with `1 ≤ i < N`, the sieve
output `totient_table(N)[i]` is Euler's totient `φ(i)` (hence in particular
`totient_table(N)[1] = 1` and `totient_table(N)[p] = p - 1` for prime `p`). -/
theorem claimC2 : ∀ N i : ℕ, 1 ≤ i → i < N →
    nth (totient_table N) i = Nat.totient i :=
  fun _ _ h1 h2 => totient_table_phi h1 h2

theorem claimC2_wit : nth (totient_table 10) 7 = Nat.totient 7 :=
  claimC2 10 7 (by decide) (by decide)

/-- Claim C3, counterexample.  The claim states
`modexp(base, exponent, modulus) = base ^ exponent mod modulus` for every
`modulus ≥ 1`, and that `exponent = 0` yields `1 mod modulus`.  At
`modulus = 1`, `exponent = 0` the code returns `1`, but
`base ^ 0 mod 1 = 0 = 1 mod 1`. -/
theorem claimC3_cex : modexp 2 0 1 ≠ 2 ^ 0 % 1 := by decide

/-- Claim C3, amended: for `u32` inputs, `modexp` returns
`base ^ exponent mod modulus` whenever `modulus ≥ 2`, or `modulus ≥ 1` and
`exponent ≥ 1`; in the remaining case `modulus = 1`, `exponent = 0` it
returns `1` instead of `0`. -/
theorem claimC3 : ∀ base exponent modulus : ℕ, base < 2 ^ 32 →
    modulus < 2 ^ 32 → 1 ≤ modulus → 2 ≤ modulus ∨ 1 ≤ exponent →
    modexp base exponent modulus = base ^ exponent % modulus :=
  fun _ _ _ hb hm32 hm h => modexp_correct hb hm32 hm h

theorem claimC3_wit : modexp 3 5 7 = 3 ^ 5 % 7 :=
  claimC3 3 5 7 (by decide) (by decide) (by decide) (Or.inl (by decide))

/-- Claim C4.  The claim states the three-regime loop invariant: at the
moment index `n` is about to be processed, every multiple of `3` in
`[n, 3n) ∩ [0, N)` holds a transitional value for modulus `i / 3`.  This
fails on the code: for `N = 7`, before processing `n = 3` the buffer is
`[0, 0, 1, 0, 2, 4, 2]`; index `6` lies in the transitional regime
(`3 ≤ 6 < 9`, `6 < 7`, `6 % 3 = 0`) but holds `totient(6) = 2`, and `2` is
not a transitional value for modulus `6 / 3 = 2`, since
`2 * 3^k ≡ 0 (mod 2)` while `3^(k-1) ≡ 1 (mod 2)` for every `k`.
(Same root cause as C1: the `n < max / 3` guard skipped the write at
`n = 2` although `3 * 2 < 7`.) -/
theorem claimC4 :
    grahamUpTo 7 3 = some [0, 0, 1, 0, 2, 4, 2] ∧
      (3 ≤ 6 ∧ 6 < 3 * 3 ∧ 6 < 7 ∧ (6 : ℕ) % 3 = 0) ∧
      ¬TransVal (nth [0, 0, 1, 0, 2, 4, 2] 6) (6 / 3) := by
  refine ⟨by decide, by decide, ?_⟩
  rintro ⟨K, hK⟩
  have h := hK (K + 1) (by omega)
  rw [show nth [0, 0, 1, 0, 2, 4, 2] 6 = 2 from rfl,
    show (6 : ℕ) / 3 = 2 from rfl, Nat.mul_mod_right,
    show K + 1 - 1 = K from rfl, pow3_mod2 K] at h
  exact absurd h (by omega)

/-- Claim C5.  The claim states `graham_table(N)[i]` is independent of `N`
whenever `N > i`.  This fails on the code: `graham_table(7)[6] = 0` but
`graham_table(10)[6] = 3` (the correct residue; same root cause as C1). -/
theorem claimC5 :
    (graham_table 7).map (fun b => nth b 6) = some 0 ∧
      (graham_table 10).map (fun b => nth b 6) = some 3 := by decide

/-- Claim C6.  The claim states the ahead-of-scan write to `buf[3n]` is
performed if and only if `3n < N`.  This fails on the code, whose guard is
`n < N / 3` with truncating division: for `N = 7`, `n = 2` we have
`3 * 2 = 6 < 7`, yet the step leaves cell `6` untouched (it still holds
the sieve value `totient(6) = 2`), whereas the claimed write would have
stored `modexp(3, totient(2) - 1, 2) = 1` there. -/
theorem claimC6 :
    3 * 2 < 7 ∧
      grahamStep 7 2 [0, 0, 1, 0, 2, 4, 2] = some [0, 0, 1, 0, 2, 4, 2] ∧
      nth [0, 0, 1, 0, 2, 4, 2] 6 = nth (totient_table 7) 6 ∧
      modexp 3 (nth [0, 0, 1, 0, 2, 4, 2] 2 - 1) 2 = 1 ∧
      nth [0, 0, 1, 0, 2, 4, 2] 6 ≠ 1 := by decide

/-- Claim C7, counterexample.  The claim asserts `graham_table(N)[1] = 0`
for every `N > 1`; but for `N = 2` the program panics (out-of-bounds seed
write `buf[3] = 0`), modeled as `none`, so no buffer exists. -/
theorem claimC7_cex : graham_table 2 = none := by decide

/-- Claim C7, amended: for every `N ≥ 4` (the values for which
`graham_table` completes), the returned buffer has `buf[1] = 0` and
`buf[2] = 1`. -/
theorem claimC7 : ∀ N : ℕ, 4 ≤ N →
    (graham_table N).map (fun b => (nth b 1, nth b 2)) = some (0, 1) := by
  intro N h4
  obtain ⟨out, ho, -, h1, h2⟩ := graham_table_spec h4
  rw [ho, Option.map_some', h1, h2]

theorem claimC7_wit :
    (graham_table 4).map (fun b => (nth b 1, nth b 2)) = some (0, 1) :=
  claimC7 4 (by decide)

/-- Claim C8.  Whenever the `n mod 3 ≠ 0` branch computes `totient_n - 1`,
the buffer cell `buf[n]` read at that moment still holds `totient(n) ≥ 1`,
so the unsigned subtraction cannot underflow: at the state just before the
scan processes such an `n`, the cell equals `Nat.totient n` and is
positive. -/
theorem claimC8 : ∀ (max n : ℕ) (buf : List ℕ), 2 ≤ n → n < max →
    n % 3 ≠ 0 → grahamUpTo max n = some buf →
    nth buf n = Nat.totient n ∧ 1 ≤ nth buf n := by
  intro max n buf h2 hn hmod hup
  have h := grahamUpTo_totient h2 hn hmod hup
  refine ⟨h, ?_⟩
  rw [h]
  exact Nat.totient_pos.mpr (by omega)

theorem claimC8_wit :
    nth [0, 0, 1, 0, 2] 2 = Nat.totient 2 ∧ 1 ≤ nth [0, 0, 1, 0, 2] 2 :=
  claimC8 5 2 [0, 0, 1, 0, 2] (by decide) (by decide) (by decide) (by decide)

/-- Claim C9.  Every `modexp` call made during `graham_table`'s scan passes
a modulus of at least `2` (the scan index `n ≥ 2`), hence never `0`, so no
division by zero occurs inside `modexp`.  Stated over the instrumented
scan `grahamTrace`, which records each call's `(base, exponent, modulus)`
and whose buffer component provably coincides with `graham_table`. -/
theorem claimC9 : ∀ (max : ℕ) (out : List ℕ × List (ℕ × ℕ × ℕ))
    (c : ℕ × ℕ × ℕ), grahamTrace max = some out → c ∈ out.2 → 2 ≤ c.2.2 := by
  intro max out c htr hc
  rw [grahamTrace] at htr
  cases hseed : grahamSeed max with
  | none =>
    rw [hseed] at htr
    simp at htr
  | some b =>
    rw [hseed, Option.some_bind] at htr
    exact grahamLoopTF_moduli max max max 2 b [] out le_rfl htr
      (by simp) c hc

theorem claimC9_wit : 2 ≤ ((3, 0, 2) : ℕ × ℕ × ℕ).2.2 :=
  claimC9 5 ([0, 0, 1, 0, 3], [(3, 0, 2), (3, 1, 4)]) (3, 0, 2)
    (by decide) (by decide)

/-- Claim C10.  `graham_table(max)` performs the seed writes `buf[1] = 0`
and `buf[3] = 0` unconditionally, so it panics (modeled as `none`) exactly
for `max ≤ 3`; for `max ≥ 4` every buffer access of the whole run is in
bounds and the computation completes. -/
theorem claimC10 : ∀ max : ℕ, (graham_table max).isSome ↔ 4 ≤ max := by
  intro max
  constructor
  · intro h
    by_contra h4
    rw [graham_table_none (by omega)] at h
    simp at h
  · intro h4
    obtain ⟨out, ho, -, -, -⟩ := graham_table_spec h4
    rw [ho]
    rfl
